import Mathlib

/-!
# Verification of the quant-examples numerical routines

Shallow embedding of the four modules of the repository
(`stochastic/fbm.py`, `stochastic/brownian.py`, `stochastic/yield_curve.py`,
`stats/gaussian_mixtures.py`) over the real numbers.

Convention for float semantics: a value of type `Option ℝ` is `some x` when the
floating-point computation produces the finite value abstracted by the real
number `x`, and `none` when it produces a non-finite float (`inf` or `nan`),
as the numpy division by zero and `0.0 ** negative` do.  Exceptions raised by
Python code are modelled with `Except`.
-/

open scoped Classical
open Matrix

/-- numpy float division `a / b`: non-finite (`nan` when `a = 0`, `±inf`
otherwise) exactly when `b = 0`; numpy emits a warning but no exception. -/
noncomputable def divF (a b : ℝ) : Option ℝ :=
  if b = 0 then none else some (a / b)

/-- numpy float power `b ** e`: for `b > 0` it is `rpow`; `0 ** e` is `0` for
positive `e`, `1` for `e = 0` and `inf` (non-finite) for negative `e`;
a negative base gives a finite value only for integer exponents (where `rpow`
agrees with the integer power) and `nan` otherwise. -/
noncomputable def powF (b e : ℝ) : Option ℝ :=
  if 0 < b then some (b ^ e)
  else if b = 0 then (if 0 < e then some 0 else if e = 0 then some 1 else none)
  else if ∃ n : ℤ, e = (n : ℝ) then some (b ^ e) else none

/-- Rising factorial `(a)ₙ = a (a+1) ⋯ (a+n-1)`, the Pochhammer symbol in the
hypergeometric series. -/
def poch (a : ℝ) (n : ℕ) : ℝ :=
  ∏ k ∈ Finset.range n, (a + k)

/-- Gauss hypergeometric function `₂F₁(a, b; c; x)`, modelling
`scipy.special.hyp2f1` by its defining power series
`∑ₙ (a)ₙ (b)ₙ / (c)ₙ · xⁿ / n!` (junk value where the series diverges; the
repository only evaluates it inside the disc of convergence). -/
noncomputable def hyp2f1 (a b c x : ℝ) : ℝ :=
  tsum fun n : ℕ => poch a n * poch b n / poch c n * x ^ n / (n.factorial : ℝ)

/-- The scipy/Cephes `hyp2f1` call at the float level.  Cephes begins with the
early return `if ((a == 0 || b == 0) && c != 0) return 1.0;`, which never
reads `x` — so even a `nan` argument yields `1.0` in that case (this happens
in the covariance kernel exactly when `b = 0.5 - H = 0`, i.e. `H = 0.5`).
Outside that branch a non-finite argument propagates to a non-finite result
and a finite argument is evaluated by the series model `hyp2f1`. -/
noncomputable def hyp2f1F (a b c : ℝ) (x : Option ℝ) : Option ℝ :=
  if (a = 0 ∨ b = 0) ∧ c ≠ 0 then some 1
  else x.map (hyp2f1 a b c)

/-- Model of `covariance_levy_fbm` from `src/stochastic/fbm.py`:

```
u_max_v = np.maximum(u, v); u_min_v = np.minimum(u, v)
cov = u_min_v ** (H + 0.5) * u_max_v ** (H - 0.5) \
        * hyp2f1(1.0, 0.5 - H, 1.5 + H, u_min_v / u_max_v)
cov *= (2 * H) / (H + 0.5)
```

The source vectorizes over arrays of times; the model is the pointwise
computation done for each entry.  The `Option` plumbing tracks non-finite
intermediate floats (a `none` operand makes the numpy result `nan`, except
through the Cephes early return captured by `hyp2f1F`, which can turn the
`nan` ratio `0/0` into the finite factor `1.0` when `H = 0.5`). -/
noncomputable def covariance_levy_fbm (u v H : ℝ) : Option ℝ :=
  let lo := min u v
  let hi := max u v
  (powF lo (H + 0.5)).bind fun p1 =>
    (powF hi (H - 0.5)).bind fun p2 =>
      (hyp2f1F 1 (0.5 - H) (1.5 + H) (divF lo hi)).bind fun h =>
        (divF (2 * H) (H + 0.5)).map fun q =>
          p1 * p2 * h * q

/-- The finite real value of the covariance kernel, attained whenever both
times are positive (see `covariance_levy_fbm_of_pos`). -/
noncomputable def covR (u v H : ℝ) : ℝ :=
  min u v ^ (H + 0.5) * max u v ^ (H - 0.5) *
      hyp2f1 1 (0.5 - H) (1.5 + H) (min u v / max u v) * (2 * H / (H + 0.5))

/-- Entry `k` of `np.linspace(0, t, n + 1)` (uniform grid over `[0, t]`). -/
noncomputable def gridPt (t : ℝ) (n : ℕ) (k : ℕ) : ℝ :=
  t * k / n

/-- The covariance matrix `covariance_levy_fbm(u, u.T, H)` built by
`simulate_fbm` over the interior grid points `tab_t[1:]`
(`u = np.tile(tab_t[1:], (n_steps, 1)).T`, so entry `(i, j)` pairs the
interior times `t_{i+1}` and `t_{j+1}`), at the `Option` (float) level. -/
noncomputable def covMatrixO (t : ℝ) (n : ℕ) (H : ℝ) :
    Matrix (Fin n) (Fin n) (Option ℝ) :=
  fun i j => covariance_levy_fbm (gridPt t n ((i : ℕ) + 1)) (gridPt t n ((j : ℕ) + 1)) H

/-- The real-valued covariance matrix underlying `covMatrixO` (its entries are
all finite when `t > 0` and `0 < H`, see `covMatrixO_isSome`). -/
noncomputable def covMatrixR (t : ℝ) (n : ℕ) (H : ℝ) : Matrix (Fin n) (Fin n) ℝ :=
  fun i j => (covMatrixO t n H i j).getD 0

/-!
## Cholesky factorization

`np.linalg.cholesky` is modelled by the standard outer-product Cholesky
algorithm (eliminate the first row/column, recurse on the Schur complement),
failing — as LAPACK `dpotrf` does — exactly when a pivot is not positive.
We prove the algorithm succeeds exactly on positive definite matrices, which
is the documented contract of `np.linalg.cholesky` (raises `LinAlgError`
otherwise).
-/

/-- One-step Schur complement: the matrix the Cholesky recursion continues on
after eliminating the first row and column. -/
noncomputable def schur {n : ℕ} (A : Matrix (Fin (n + 1)) (Fin (n + 1)) ℝ) :
    Matrix (Fin n) (Fin n) ℝ :=
  fun i j => A i.succ j.succ - A i.succ 0 * A j.succ 0 / A 0 0

/-- Reassemble the Cholesky factor: first row `(s, 0, …, 0)`, first column
below the diagonal `w`, and the recursively computed factor `L1`. -/
def extendChol {n : ℕ} (s : ℝ) (w : Fin n → ℝ)
    (L1 : Matrix (Fin n) (Fin n) ℝ) : Matrix (Fin (n + 1)) (Fin (n + 1)) ℝ :=
  Fin.cons (Fin.cons s 0) fun i => Fin.cons (w i) (L1 i)

/-- The Cholesky algorithm: returns the lower-triangular factor, or `none`
(the `LinAlgError` of `np.linalg.cholesky`) when a pivot is not positive. -/
noncomputable def cholesky : (n : ℕ) → Matrix (Fin n) (Fin n) ℝ →
    Option (Matrix (Fin n) (Fin n) ℝ)
  | 0, _ => some 0
  | n + 1, A =>
    if 0 < A 0 0 then
      (cholesky n (schur A)).map fun L1 =>
        extendChol (Real.sqrt (A 0 0))
          (fun i => A i.succ 0 / Real.sqrt (A 0 0)) L1
    else none

/-- The quadratic form `xᵀ A x`. -/
noncomputable def quadForm {n : ℕ} (A : Matrix (Fin n) (Fin n) ℝ)
    (x : Fin n → ℝ) : ℝ :=
  dotProduct x (A.mulVec x)

/-!
## Path simulators

`np.random.seed(seed)` resets the global generator, after which the normal
variates drawn are a fixed function of the seed and of the position in the
row-major draw order.  The embedding therefore threads an arbitrary stream
`gauss : ℕ → ℕ → ℝ` (seed ↦ position ↦ standard-normal draw); every theorem
below is quantified over all such streams, so nothing depends on the
particular values drawn.
-/

/-- Model of `np.cumsum(·, axis=0)`: row `i` holds the sum of rows `0..i`. -/
def cumsum {n m : ℕ} (M : Matrix (Fin n) (Fin m) ℝ) : Matrix (Fin n) (Fin m) ℝ :=
  fun i j => ∑ k : Fin n, if k ≤ i then M k j else 0

/-- Model of `np.insert(·, 0, 0, axis=0)`: prepend a zero row. -/
def prepend0 {n m : ℕ} (M : Matrix (Fin n) (Fin m) ℝ) :
    Matrix (Fin (n + 1)) (Fin m) ℝ :=
  fun i j => Fin.cases 0 (fun i2 => M i2 j) i

/-- Model of `simulate_fbm` from `src/stochastic/fbm.py`:

```
np.random.seed(seed)
tab_t = np.linspace(0, t, n_steps + 1)
u = np.tile(tab_t[1:], (n_steps, 1)).T
z = np.random.normal(size=(n_steps, n_paths))
L = np.linalg.cholesky(covariance_levy_fbm(u, u.T, H))
fbm_paths = L @ z
fbm_paths = np.insert(fbm_paths, 0, 0, axis=0)
return tab_t, fbm_paths
```

`none` models the propagated `LinAlgError` of the Cholesky call (the code
installs no handler, so the underlying error escapes to the caller).  The
guard on finiteness of the covariance entries is conservative: for the
parameter ranges the spec admits (`t > 0`, `0 < H`) every entry is finite
(`covMatrixO_isSome`), so only the Cholesky failure branch is reachable. -/
noncomputable def simulate_fbm (gauss : ℕ → ℕ → ℝ) (t H : ℝ)
    (n_steps n_paths : ℕ) (seed : ℕ) :
    Option ((Fin (n_steps + 1) → ℝ) × Matrix (Fin (n_steps + 1)) (Fin n_paths) ℝ) :=
  let tab_t : Fin (n_steps + 1) → ℝ := fun i => gridPt t n_steps (i : ℕ)
  let z : Matrix (Fin n_steps) (Fin n_paths) ℝ :=
    fun i j => gauss seed ((i : ℕ) * n_paths + (j : ℕ))
  if ∀ i j, (covMatrixO t n_steps H i j).isSome then
    (cholesky n_steps (covMatrixR t n_steps H)).map fun L =>
      (tab_t, prepend0 (L * z))
  else none

/-- Model of `simulate_brownian_motion` from `src/stochastic/brownian.py`:

```
np.random.seed(seed)
dt = T / n_steps
increments = np.random.normal(0, np.sqrt(dt), size=(n_steps, n_mc))
tab_t = np.linspace(0, T, n_steps + 1)
bm_paths = np.cumsum(increments, axis=0)
bm_paths = np.insert(bm_paths, 0, 0, axis=0)
return tab_t, bm_paths
``` -/
noncomputable def simulate_brownian_motion (gauss : ℕ → ℕ → ℝ) (T : ℝ)
    (n_steps n_mc : ℕ) (seed : ℕ) :
    (Fin (n_steps + 1) → ℝ) × Matrix (Fin (n_steps + 1)) (Fin n_mc) ℝ :=
  let dt := T / (n_steps : ℝ)
  let increments : Matrix (Fin n_steps) (Fin n_mc) ℝ :=
    fun i j => Real.sqrt dt * gauss seed ((i : ℕ) * n_mc + (j : ℕ))
  let tab_t : Fin (n_steps + 1) → ℝ := fun i => gridPt T n_steps (i : ℕ)
  (tab_t, prepend0 (cumsum increments))

/-- Model of `simulate_brownian_bridge` from `src/stochastic/brownian.py`:

```
np.random.seed(seed)
T = t1 - t0
dt = T / n_steps
increments = np.random.normal(0, np.sqrt(dt), size=(n_steps, n_mc))
tab_t = np.linspace(t0, t1, n_steps + 1)
bm_paths = np.cumsum(increments, axis=0)
bm_paths = np.insert(bm_paths, 0, 0, axis=0)
bridge_paths = bm_paths - (tab_t[:, None] - t0) / T * (bm_paths[-1, :] - (b - a))
bridge_paths += a
return tab_t, bridge_paths
``` -/
noncomputable def simulate_brownian_bridge (gauss : ℕ → ℕ → ℝ) (a b t0 t1 : ℝ)
    (n_steps n_mc : ℕ) (seed : ℕ) :
    (Fin (n_steps + 1) → ℝ) × Matrix (Fin (n_steps + 1)) (Fin n_mc) ℝ :=
  let T := t1 - t0
  let dt := T / (n_steps : ℝ)
  let increments : Matrix (Fin n_steps) (Fin n_mc) ℝ :=
    fun i j => Real.sqrt dt * gauss seed ((i : ℕ) * n_mc + (j : ℕ))
  let tab_t : Fin (n_steps + 1) → ℝ := fun i => t0 + T * (i : ℕ) / (n_steps : ℝ)
  let bm_paths := prepend0 (cumsum increments)
  let bridge_paths : Matrix (Fin (n_steps + 1)) (Fin n_mc) ℝ :=
    fun i j => bm_paths i j - (tab_t i - t0) / T *
      (bm_paths (Fin.last n_steps) j - (b - a)) + a
  (tab_t, bridge_paths)

/-!
## Gaussian mixture PDF (`src/stats/gaussian_mixtures.py`)
-/

/-- Model of `scipy.stats.multivariate_normal.pdf`: the density formula
`(2π)^(-k/2) det(Σ)^(-1/2) exp(-½ (x-μ)ᵀ Σ⁻¹ (x-μ))`; scipy validates the
covariance before evaluating it (see `gaussian_mixture_pdf`). -/
noncomputable def multivariate_normal_pdf {k : ℕ} (x μ : Fin k → ℝ)
    (S : Matrix (Fin k) (Fin k) ℝ) : ℝ :=
  (2 * Real.pi) ^ (-(k : ℝ) / 2) * S.det ^ (-(1 : ℝ) / 2) *
    Real.exp (-(1 / 2) * dotProduct (x - μ) (S⁻¹ *ᵥ (x - μ)))

/-- Model of `gaussian_mixture_pdf` from `src/stats/gaussian_mixtures.py`.  The weight
check `if weights.sum() != 1: raise ValueError(...)` comes first, before any
density computation; the subsequent `ndim`/`shape` validations of means and
covariances hold by construction in this `Fin`-indexed embedding.  The second
branch models scipy raising (inside the loop) when a component covariance is
not symmetric positive definite; exceptions are modelled with `Except`. -/
noncomputable def gaussian_mixture_pdf {ns k nc : ℕ} (x : Fin ns → Fin k → ℝ)
    (weights : Fin nc → ℝ) (means : Fin nc → Fin k → ℝ)
    (covariances : Fin nc → Matrix (Fin k) (Fin k) ℝ) :
    Except String (Fin ns → ℝ) :=
  if (∑ i, weights i) ≠ 1 then Except.error "Weights must sum to 1."
  else if ∀ i, (covariances i).PosDef then
    Except.ok fun s =>
      ∑ i, weights i * multivariate_normal_pdf (x s) (means i) (covariances i)
  else Except.error "the input matrix must be symmetric positive semidefinite."

/-!
## Nelson–Siegel yield curve (`src/stochastic/yield_curve.py`)
-/

/-- Model of `nelson_siegel` from `src/stochastic/yield_curve.py`:

```
exp_term = (1.0 - np.exp(-lbd * tau)) / (lbd * tau)
return beta0 + beta1 * exp_term + beta2 * (exp_term - np.exp(-lbd * tau))
```

The source vectorizes over `tau`; the model is the pointwise computation.
The division is unguarded: `lbd * tau = 0` silently produces `nan`
(modelled by `none`), not an exception. -/
noncomputable def nelson_siegel (tau beta0 beta1 beta2 lbd : ℝ) : Option ℝ :=
  (divF (1 - Real.exp (-(lbd * tau))) (lbd * tau)).map fun exp_term =>
    beta0 + beta1 * exp_term + beta2 * (exp_term - Real.exp (-(lbd * tau)))

/-- Model of `nelson_siegel_loadings` from `src/stochastic/yield_curve.py`, as the row
of the loadings matrix for one maturity `tau`:
`loading0 = 1`, `loading1 = exp_term`,
`loading2 = exp_term - exp(-lbd*tau)`, with the same unguarded division. -/
noncomputable def nelson_siegel_loadings (tau lbd : ℝ) :
    Option ℝ × Option ℝ × Option ℝ :=
  (some 1,
   divF (1 - Real.exp (-(lbd * tau))) (lbd * tau),
   (divF (1 - Real.exp (-(lbd * tau))) (lbd * tau)).map fun exp_term =>
     exp_term - Real.exp (-(lbd * tau)))

/-- The all-zero draw stream, used to instantiate witnesses. -/
def zeroStream : ℕ → ℕ → ℝ := fun _ _ => 0

/-- Witness inputs for the weight check: weights `[0.3, 0.3]` (sum `0.6 ≠ 1`)
with trivial sample points, means and covariances. -/
noncomputable def mixW7 : Fin 2 → ℝ := ![3 / 10, 3 / 10]

/-- Witness sample points for the weight check. -/
def mixX7 : Fin 1 → Fin 1 → ℝ := fun _ _ => 0

/-- Witness means for the weight check. -/
def mixMu7 : Fin 2 → Fin 1 → ℝ := fun _ _ => 0

/-- Witness covariances for the weight check. -/
def mixS7 : Fin 2 → Matrix (Fin 1) (Fin 1) ℝ := fun _ => 1

/-- Witness inputs for the amended non-negativity claim: a single standard
normal component with weight `1`, evaluated at `x = 0`. -/
def mixOkX : Fin 1 → Fin 1 → ℝ := fun _ _ => 0

/-- Witness weight for the amended non-negativity claim. -/
def mixOkW : Fin 1 → ℝ := fun _ => 1

/-- Witness mean for the amended non-negativity claim. -/
def mixOkMu : Fin 1 → Fin 1 → ℝ := fun _ _ => 0

/-- Witness covariance for the amended non-negativity claim. -/
def mixOkS : Fin 1 → Matrix (Fin 1) (Fin 1) ℝ := fun _ => 1

/-- The density values returned on the witness inputs. -/
noncomputable def mixOkOut : Fin 1 → ℝ :=
  fun s => ∑ i, mixOkW i * multivariate_normal_pdf (mixOkX s) (mixOkMu i) (mixOkS i)

/-- The output of `simulate_fbm` on the witness parameters
(`t = 1`, `H = 1/2`, one step, one path, all-zero draws). -/
noncomputable def fbmOutW : (Fin 2 → ℝ) × Matrix (Fin 2) (Fin 1) ℝ :=
  (fun i => gridPt 1 1 (i : ℕ), fun _ _ => 0)

/-- Evaluation points for the mixture counterexample: one sample at `x = 3`. -/
def mixCexX : Fin 1 → Fin 1 → ℝ := fun _ _ => 3

/-- Counterexample weights: they sum to `1` but one of them is negative. -/
def mixCexW : Fin 2 → ℝ := ![2, -1]

/-- Counterexample component means `0` and `3`. -/
def mixCexMu : Fin 2 → Fin 1 → ℝ := ![fun _ => 0, fun _ => 3]

/-- Counterexample component covariances, both the identity. -/
def mixCexS : Fin 2 → Matrix (Fin 1) (Fin 1) ℝ := fun _ => 1

/-- The density values `gaussian_mixture_pdf` returns on the counterexample
inputs. -/
noncomputable def mixCexOut : Fin 1 → ℝ :=
  fun s => ∑ i, mixCexW i * multivariate_normal_pdf (mixCexX s) (mixCexMu i) (mixCexS i)

theorem divF_of_ne_zero (a : ℝ) {b : ℝ} (h : b ≠ 0) : divF a b = some (a / b) := by
  simp [divF, h]

@[simp] theorem divF_zero_right (a : ℝ) : divF a 0 = none := by
  simp [divF]

theorem powF_of_pos {b : ℝ} (e : ℝ) (h : 0 < b) : powF b e = some (b ^ e) := by
  simp [powF, h]

theorem powF_zero_of_pos {e : ℝ} (h : 0 < e) : powF 0 e = some 0 := by
  simp [powF, h]

@[simp] theorem powF_zero_zero : powF 0 0 = some 1 := by
  simp [powF]

@[simp] theorem poch_zero_right (a : ℝ) : poch a 0 = 1 := by
  simp [poch]

theorem poch_zero_left {n : ℕ} (hn : n ≠ 0) : poch 0 n = 0 := by
  refine Finset.prod_eq_zero (i := 0) ?_ (by norm_num)
  simpa using Nat.pos_of_ne_zero hn

theorem hyp2f1_b_zero (a c x : ℝ) : hyp2f1 a 0 c x = 1 := by
  unfold hyp2f1
  rw [tsum_eq_single 0 (fun n hn => by simp [poch_zero_left hn])]
  simp

theorem hyp2f1_x_zero (a b c : ℝ) : hyp2f1 a b c 0 = 1 := by
  unfold hyp2f1
  rw [tsum_eq_single 0 (fun n hn => by simp [zero_pow hn])]
  simp

theorem hyp2f1_a_zero (b c x : ℝ) : hyp2f1 0 b c x = 1 := by
  unfold hyp2f1
  rw [tsum_eq_single 0 (fun n hn => by simp [poch_zero_left hn])]
  simp

/-- On a finite argument the Cephes early return agrees with the series (if it
fires, `a = 0` or `b = 0` makes the series collapse to `1`), so `hyp2f1F` is
the series value there. -/
theorem hyp2f1F_some (a b c r : ℝ) :
    hyp2f1F a b c (some r) = some (hyp2f1 a b c r) := by
  rw [hyp2f1F]
  split_ifs with h
  · rcases h.1 with ha | hb
    · rw [ha, hyp2f1_a_zero]
    · rw [hb, hyp2f1_b_zero]
  · rfl

theorem covariance_levy_fbm_of_pos {u v H : ℝ} (hu : 0 < u) (hv : 0 < v)
    (hH : 0 < H) : covariance_levy_fbm u v H = some (covR u v H) := by
  have hlo : 0 < min u v := lt_min hu hv
  have hhi : 0 < max u v := lt_max_of_lt_left hu
  have hH5 : H + 0.5 ≠ 0 := by positivity
  rw [covariance_levy_fbm]
  simp only [powF_of_pos _ hlo, powF_of_pos _ hhi, divF_of_ne_zero _ hhi.ne',
    hyp2f1F_some, divF_of_ne_zero _ hH5, Option.bind_some, Option.map_some]
  rfl

theorem covariance_levy_fbm_comm (u v H : ℝ) :
    covariance_levy_fbm u v H = covariance_levy_fbm v u H := by
  simp [covariance_levy_fbm, min_comm u v, max_comm u v]

/-- With both times zero the code divides `u_min_v / u_max_v = 0 / 0`; for
every Hurst parameter other than `0.5` the parameter `b = 0.5 - H` of the
hypergeometric call is non-zero, the Cephes early return does not fire, the
`nan` propagates, and the result is non-finite. -/
theorem covariance_levy_fbm_zero_zero {H : ℝ} (hH0 : 0 < H) (hne : H ≠ 1 / 2) :
    covariance_levy_fbm 0 0 H = none := by
  have hb : ¬(((1:ℝ) = 0 ∨ 0.5 - H = 0) ∧ (1.5 + H ≠ 0)) := by
    rintro ⟨h1 | h2, -⟩
    · exact one_ne_zero h1
    · exact hne (by linarith)
  have h3 : hyp2f1F 1 (0.5 - H) (1.5 + H) none = none := by
    rw [hyp2f1F, if_neg hb]
    rfl
  rw [covariance_levy_fbm]
  simp only [min_self, max_self, divF_zero_right, h3,
    powF_zero_of_pos (by linarith : (0:ℝ) < H + 0.5), Option.bind_some]
  cases powF 0 (H - 0.5) with
  | none => rfl
  | some p2 => rfl

/-- At `u = v = 0` with `H = 0.5` the Cephes early return (`b = 0`) ignores
the `nan` ratio, `0 ** 1.0 = 0` and `0 ** 0.0 = 1`, and the code returns
`0.0` — finite, unlike every other `H`. -/
theorem covariance_levy_fbm_origin_half :
    covariance_levy_fbm 0 0 (1 / 2) = some 0 := by
  have h1 : powF 0 ((1:ℝ) / 2 + 0.5) = some 0 := powF_zero_of_pos (by norm_num)
  have h2 : powF 0 ((1:ℝ) / 2 - 0.5) = some 1 := by
    rw [show (1:ℝ) / 2 - 0.5 = 0 from by norm_num]
    exact powF_zero_zero
  have h3 : hyp2f1F 1 (0.5 - 1 / 2) (1.5 + 1 / 2) none = some 1 := by
    rw [hyp2f1F, if_pos ⟨Or.inr (by norm_num), by norm_num⟩]
  have h4 : divF (2 * (1 / 2 : ℝ)) (1 / 2 + 0.5) = some 1 := by
    rw [divF_of_ne_zero _ (by norm_num : (1:ℝ) / 2 + 0.5 ≠ 0)]
    norm_num
  rw [covariance_levy_fbm]
  simp only [min_self, max_self, divF_zero_right, h1, h2, h3, h4,
    Option.bind_some, Option.map_some]
  norm_num

theorem covariance_levy_fbm_zero_left {v H : ℝ} (hv : 0 < v) (hH : 0 < H) :
    covariance_levy_fbm 0 v H = some 0 := by
  have hmin : min 0 v = 0 := min_eq_left hv.le
  have hmax : max 0 v = v := max_eq_right hv.le
  have hH5 : H + 0.5 ≠ 0 := by positivity
  rw [covariance_levy_fbm]
  simp only [hmin, hmax, powF_zero_of_pos (by positivity : (0:ℝ) < H + 0.5),
    powF_of_pos _ hv, divF_of_ne_zero _ hv.ne', hyp2f1F_some,
    divF_of_ne_zero _ hH5, Option.bind_some, Option.map_some, zero_div]
  simp

/-- For `H = 1/2` the kernel reduces to `min u v` on all non-negative times:
the hypergeometric factor is `1` (by the `b = 0` early return, even at
`u = v = 0` where the ratio is `nan`) and the prefactor `(2H)/(H + 0.5)`
is `1`. -/
theorem covariance_levy_fbm_half {u v : ℝ} (hu : 0 ≤ u) (hv : 0 ≤ v) :
    covariance_levy_fbm u v (1 / 2) = some (min u v) := by
  rcases eq_or_lt_of_le hu with hu0 | hu0
  · rcases eq_or_lt_of_le hv with hv0 | hv0
    · rw [← hu0, ← hv0, covariance_levy_fbm_origin_half, min_self]
    · rw [← hu0, covariance_levy_fbm_zero_left hv0 (by norm_num)]
      rw [min_eq_left hv]
  · rcases eq_or_lt_of_le hv with hv0 | hv0
    · rw [← hv0, covariance_levy_fbm_comm,
        covariance_levy_fbm_zero_left hu0 (by norm_num), min_eq_right hu]
    · rw [covariance_levy_fbm_of_pos hu0 hv0 (by norm_num), covR]
      have h1 : (1 / 2 : ℝ) + 0.5 = 1 := by norm_num
      have h2 : (1 / 2 : ℝ) - 0.5 = 0 := by norm_num
      have h3 : (0.5 : ℝ) - 1 / 2 = 0 := by norm_num
      rw [h1, h2, h3, Real.rpow_one, Real.rpow_zero, hyp2f1_b_zero]
      norm_num

theorem covMatrixO_transpose (t : ℝ) (n : ℕ) (H : ℝ) :
    (covMatrixO t n H)ᵀ = covMatrixO t n H := by
  funext i j
  exact covariance_levy_fbm_comm _ _ _

theorem covMatrixR_isSymm (t : ℝ) (n : ℕ) (H : ℝ) : (covMatrixR t n H).IsSymm := by
  funext i j
  simp only [Matrix.transpose_apply, covMatrixR, covMatrixO]
  rw [covariance_levy_fbm_comm]

theorem gridPt_pos {t : ℝ} {n k : ℕ} (ht : 0 < t) (hn : 0 < n) (hk : 0 < k) :
    0 < gridPt t n k := by
  have : (0:ℝ) < k := by exact_mod_cast hk
  have : (0:ℝ) < n := by exact_mod_cast hn
  unfold gridPt
  positivity

theorem covMatrixO_isSome {t H : ℝ} {n : ℕ} (ht : 0 < t) (hH : 0 < H) :
    ∀ i j : Fin n, (covMatrixO t n H i j).isSome := by
  intro i j
  rw [covMatrixO, covariance_levy_fbm_of_pos (gridPt_pos ht i.pos (Nat.succ_pos _))
    (gridPt_pos ht j.pos (Nat.succ_pos _)) hH]
  rfl

theorem covMatrixR_entry {t H : ℝ} {n : ℕ} (ht : 0 < t) (hH : 0 < H)
    (i j : Fin n) :
    covMatrixR t n H i j =
      covR (gridPt t n ((i : ℕ) + 1)) (gridPt t n ((j : ℕ) + 1)) H := by
  rw [covMatrixR, covMatrixO, covariance_levy_fbm_of_pos
    (gridPt_pos ht i.pos (Nat.succ_pos _)) (gridPt_pos ht j.pos (Nat.succ_pos _)) hH]
  rfl

@[simp] theorem extendChol_zero_zero {n : ℕ} (s : ℝ) (w : Fin n → ℝ)
    (L1 : Matrix (Fin n) (Fin n) ℝ) : extendChol s w L1 0 0 = s := by
  simp [extendChol]

@[simp] theorem extendChol_zero_succ {n : ℕ} (s : ℝ) (w : Fin n → ℝ)
    (L1 : Matrix (Fin n) (Fin n) ℝ) (j : Fin n) :
    extendChol s w L1 0 j.succ = 0 := by
  simp [extendChol]

@[simp] theorem extendChol_succ_zero {n : ℕ} (s : ℝ) (w : Fin n → ℝ)
    (L1 : Matrix (Fin n) (Fin n) ℝ) (i : Fin n) :
    extendChol s w L1 i.succ 0 = w i := by
  simp [extendChol]

@[simp] theorem extendChol_succ_succ {n : ℕ} (s : ℝ) (w : Fin n → ℝ)
    (L1 : Matrix (Fin n) (Fin n) ℝ) (i j : Fin n) :
    extendChol s w L1 i.succ j.succ = L1 i j := by
  simp [extendChol]

theorem schur_isSymm {n : ℕ} {A : Matrix (Fin (n + 1)) (Fin (n + 1)) ℝ}
    (hA : A.IsSymm) : (schur A).IsSymm := by
  funext i j
  simp only [Matrix.transpose_apply, schur]
  rw [hA.apply i.succ j.succ]
  ring

theorem quadForm_eq {n : ℕ} (A : Matrix (Fin n) (Fin n) ℝ) (x : Fin n → ℝ) :
    quadForm A x = ∑ i, ∑ j, x i * A i j * x j := by
  simp only [quadForm, dotProduct, Matrix.mulVec, Finset.mul_sum]
  exact Finset.sum_congr rfl fun i _ => Finset.sum_congr rfl fun j _ => by ring

theorem isHermitian_of_isSymm {n : ℕ} {A : Matrix (Fin n) (Fin n) ℝ}
    (hA : A.IsSymm) : A.IsHermitian := by
  rw [Matrix.IsHermitian, Matrix.conjTranspose_eq_transpose_of_trivial]
  exact hA

theorem isSymm_of_posDef {n : ℕ} {A : Matrix (Fin n) (Fin n) ℝ}
    (hA : A.PosDef) : A.IsSymm := by
  have := hA.1
  rwa [Matrix.IsHermitian, Matrix.conjTranspose_eq_transpose_of_trivial] at this

theorem posDef_iff_quadForm {n : ℕ} (A : Matrix (Fin n) (Fin n) ℝ) :
    A.PosDef ↔ A.IsSymm ∧ ∀ x : Fin n → ℝ, x ≠ 0 → 0 < quadForm A x := by
  constructor
  · intro h
    refine ⟨isSymm_of_posDef h, fun x hx => ?_⟩
    simpa [quadForm] using h.2 x hx
  · intro h
    exact ⟨isHermitian_of_isSymm h.1, fun x hx => by simpa [quadForm] using h.2 x hx⟩

theorem quadForm_cons {n : ℕ} (A : Matrix (Fin (n + 1)) (Fin (n + 1)) ℝ)
    (c : ℝ) (y : Fin n → ℝ) :
    quadForm A (Fin.cons c y) =
      A 0 0 * c * c + c * (∑ j, A 0 j.succ * y j) +
        (∑ i, y i * A i.succ 0) * c + ∑ i, ∑ j, y i * A i.succ j.succ * y j := by
  rw [quadForm_eq]
  simp only [Fin.sum_univ_succ, Fin.cons_zero, Fin.cons_succ, Finset.sum_add_distrib]
  rw [show ∑ j : Fin n, c * A 0 j.succ * y j = c * ∑ j : Fin n, A 0 j.succ * y j by
    rw [Finset.mul_sum]
    exact Finset.sum_congr rfl fun j _ => by ring]
  rw [show ∑ i : Fin n, y i * A i.succ 0 * c = (∑ i : Fin n, y i * A i.succ 0) * c by
    rw [Finset.sum_mul]]
  ring

theorem quadForm_schur {n : ℕ} (A : Matrix (Fin (n + 1)) (Fin (n + 1)) ℝ)
    (y : Fin n → ℝ) :
    quadForm (schur A) y =
      (∑ i, ∑ j, y i * A i.succ j.succ * y j) -
        (∑ i, A i.succ 0 * y i) * (∑ i, A i.succ 0 * y i) / A 0 0 := by
  rw [quadForm_eq]
  have h : ∀ i j : Fin n, y i * schur A i j * y j =
      y i * A i.succ j.succ * y j - A i.succ 0 * y i * (A j.succ 0 * y j) / A 0 0 := by
    intro i j
    rw [schur]
    ring
  simp only [h]
  rw [Fintype.sum_mul_sum, Finset.sum_div]
  simp only [Finset.sum_div]
  rw [← Finset.sum_sub_distrib]
  exact Finset.sum_congr rfl fun i _ => by rw [← Finset.sum_sub_distrib]

theorem posDef_pivot {n : ℕ} {A : Matrix (Fin (n + 1)) (Fin (n + 1)) ℝ}
    (hA : A.PosDef) : 0 < A 0 0 := by
  have hx : (Fin.cons 1 (0 : Fin n → ℝ) : Fin (n + 1) → ℝ) ≠ 0 := by
    intro h
    have := congrFun h 0
    simp [Fin.cons_zero] at this
  have h := ((posDef_iff_quadForm A).mp hA).2 _ hx
  rw [quadForm_cons] at h
  simpa using h

theorem schur_posDef {n : ℕ} {A : Matrix (Fin (n + 1)) (Fin (n + 1)) ℝ}
    (hA : A.PosDef) : (schur A).PosDef := by
  have hsym := isSymm_of_posDef hA
  have hα : 0 < A 0 0 := posDef_pivot hA
  rw [posDef_iff_quadForm]
  refine ⟨schur_isSymm hsym, fun y hy => ?_⟩
  have hx : Fin.cons (-((∑ i, A i.succ 0 * y i) / A 0 0)) y ≠ (0 : Fin (n + 1) → ℝ) := by
    intro h
    apply hy
    funext i
    have := congrFun h i.succ
    simpa [Fin.cons_succ] using this
  have h1 := ((posDef_iff_quadForm A).mp hA).2 _ hx
  rw [quadForm_cons] at h1
  rw [quadForm_schur]
  have he1 : ∑ j : Fin n, A 0 j.succ * y j = ∑ i, A i.succ 0 * y i :=
    Finset.sum_congr rfl fun j _ => by rw [← hsym.apply 0 j.succ]
  have he2 : ∑ i : Fin n, y i * A i.succ 0 = ∑ i, A i.succ 0 * y i :=
    Finset.sum_congr rfl fun i _ => by ring
  rw [he1, he2] at h1
  have heq : A 0 0 * -((∑ i, A i.succ 0 * y i) / A 0 0) * -((∑ i, A i.succ 0 * y i) / A 0 0) +
      -((∑ i, A i.succ 0 * y i) / A 0 0) * (∑ i, A i.succ 0 * y i) +
      (∑ i, A i.succ 0 * y i) * -((∑ i, A i.succ 0 * y i) / A 0 0) +
      (∑ i, ∑ j, y i * A i.succ j.succ * y j) =
      (∑ i, ∑ j, y i * A i.succ j.succ * y j) -
        (∑ i, A i.succ 0 * y i) * (∑ i, A i.succ 0 * y i) / A 0 0 := by
    field_simp
    ring
  rw [heq] at h1
  exact h1

theorem cholesky_isSome_of_posDef :
    ∀ (n : ℕ) (A : Matrix (Fin n) (Fin n) ℝ), A.PosDef → (cholesky n A).isSome := by
  intro n
  induction n with
  | zero => intro A _; simp [cholesky]
  | succ n ih =>
    intro A hA
    rw [cholesky, if_pos (posDef_pivot hA)]
    rcases Option.isSome_iff_exists.mp (ih (schur A) (schur_posDef hA)) with ⟨L1, hL1⟩
    rw [hL1]
    rfl

theorem cholesky_sound :
    ∀ (n : ℕ) (A L : Matrix (Fin n) (Fin n) ℝ), A.IsSymm → cholesky n A = some L →
      L * Lᵀ = A ∧ (∀ i j : Fin n, i < j → L i j = 0) ∧ ∀ i, 0 < L i i := by
  intro n
  induction n with
  | zero =>
    intro A L _ h
    refine ⟨?_, fun i => i.elim0, fun i => i.elim0⟩
    funext i
    exact i.elim0
  | succ n ih =>
    intro A L hsym h
    rw [cholesky] at h
    by_cases hα : 0 < A 0 0
    · rw [if_pos hα] at h
      obtain ⟨L1, hL1, hfL⟩ := Option.map_eq_some'.mp h
      obtain ⟨ih1, ih2, ih3⟩ := ih (schur A) L1 (schur_isSymm hsym) hL1
      have hs : 0 < Real.sqrt (A 0 0) := Real.sqrt_pos.mpr hα
      have hs2 : Real.sqrt (A 0 0) * Real.sqrt (A 0 0) = A 0 0 :=
        Real.mul_self_sqrt hα.le
      subst hfL
      refine ⟨?_, ?_, ?_⟩
      · funext i j
        rw [Matrix.mul_apply]
        simp only [Matrix.transpose_apply]
        induction i using Fin.cases with
        | zero =>
          induction j using Fin.cases with
          | zero => simp [Fin.sum_univ_succ, hs2]
          | succ j =>
            simp only [Fin.sum_univ_succ, extendChol_zero_zero, extendChol_zero_succ,
              extendChol_succ_zero, extendChol_succ_succ, zero_mul, Finset.sum_const_zero,
              add_zero]
            rw [mul_div_cancel₀ _ hs.ne', hsym.apply 0 j.succ]
        | succ i =>
          induction j using Fin.cases with
          | zero =>
            simp only [Fin.sum_univ_succ, extendChol_zero_zero, extendChol_zero_succ,
              extendChol_succ_zero, extendChol_succ_succ, mul_zero, Finset.sum_const_zero,
              add_zero]
            rw [div_mul_cancel₀ _ hs.ne']
          | succ j =>
            have hL1e : ∑ k : Fin n, L1 i k * L1 j k = schur A i j := by
              have := congrFun (congrFun ih1 i) j
              rw [Matrix.mul_apply] at this
              simpa [Matrix.transpose_apply] using this
            simp only [Fin.sum_univ_succ, extendChol_succ_zero, extendChol_succ_succ]
            rw [hL1e, schur]
            field_simp
      · intro i j hij
        induction i using Fin.cases with
        | zero =>
          induction j using Fin.cases with
          | zero => exact absurd hij (lt_irrefl _)
          | succ j => exact extendChol_zero_succ _ _ _ j
        | succ i =>
          induction j using Fin.cases with
          | zero => exact absurd hij (by simp [Fin.lt_def])
          | succ j =>
            exact extendChol_succ_succ _ _ _ i j ▸ ih2 i j (Fin.succ_lt_succ_iff.mp hij)
      · intro i
        induction i using Fin.cases with
        | zero => simpa using hs
        | succ i => simpa using ih3 i
    · rw [if_neg hα] at h
      exact absurd h (by simp)

theorem extendChol_det {n : ℕ} (s : ℝ) (w : Fin n → ℝ)
    (L1 : Matrix (Fin n) (Fin n) ℝ) : (extendChol s w L1).det = s * L1.det := by
  rw [Matrix.det_succ_row_zero, Fin.sum_univ_succ]
  have hz : ∀ j : Fin n, extendChol s w L1 0 j.succ = 0 := extendChol_zero_succ s w L1
  simp only [hz, mul_zero, zero_mul, Finset.sum_const_zero, add_zero]
  have hsub : (extendChol s w L1).submatrix Fin.succ ((0 : Fin (n + 1)).succAbove) = L1 := by
    funext i j
    simp [Fin.succAbove_zero]
  rw [hsub]
  simp

theorem cholesky_det_pos {n : ℕ} {A L : Matrix (Fin n) (Fin n) ℝ}
    (hsym : A.IsSymm) (h : cholesky n A = some L) : 0 < L.det := by
  obtain ⟨-, hlow, hdiag⟩ := cholesky_sound n A L hsym h
  have htri : L.BlockTriangular OrderDual.toDual := by
    intro i j hij
    exact hlow i j (by simpa using hij)
  rw [Matrix.det_of_lowerTriangular L htri]
  exact Finset.prod_pos fun i _ => hdiag i

theorem posDef_of_cholesky {n : ℕ} {A L : Matrix (Fin n) (Fin n) ℝ}
    (hsym : A.IsSymm) (h : cholesky n A = some L) : A.PosDef := by
  obtain ⟨hmul, -, -⟩ := cholesky_sound n A L hsym h
  have hdet : L.det ≠ 0 := (cholesky_det_pos hsym h).ne'
  have hunit : IsUnit Lᵀ := by
    rw [Matrix.isUnit_iff_isUnit_det, Matrix.det_transpose]
    exact isUnit_iff_ne_zero.mpr hdet
  have hinj := Matrix.mulVec_injective_iff_isUnit.mpr hunit
  refine ⟨isHermitian_of_isSymm hsym, fun x hx => ?_⟩
  have hy : Lᵀ *ᵥ x ≠ 0 := by
    intro h0
    exact hx (hinj (h0.trans (Matrix.mulVec_zero Lᵀ).symm))
  have hcalc : dotProduct (star x) (A *ᵥ x) = dotProduct (Lᵀ *ᵥ x) (Lᵀ *ᵥ x) := by
    rw [star_trivial, ← hmul, ← Matrix.mulVec_mulVec, Matrix.dotProduct_mulVec]
    congr 1
    rw [← Matrix.transpose_transpose L, Matrix.vecMul_transpose, Matrix.transpose_transpose]
  rw [hcalc]
  rw [← star_trivial (Lᵀ *ᵥ x)]
  exact Matrix.dotProduct_star_self_pos_iff.mpr hy

/-- The Cholesky algorithm fails precisely on symmetric matrices that are not
positive definite (the contract of `np.linalg.cholesky`). -/
theorem cholesky_eq_none_iff {n : ℕ} {A : Matrix (Fin n) (Fin n) ℝ}
    (hsym : A.IsSymm) : cholesky n A = none ↔ ¬A.PosDef := by
  constructor
  · intro h hPD
    have := cholesky_isSome_of_posDef n A hPD
    rw [h] at this
    exact absurd this (by simp)
  · intro h
    cases hc : cholesky n A with
    | none => rfl
    | some L => exact absurd (posDef_of_cholesky hsym hc) h

@[simp] theorem prepend0_zero {n m : ℕ} (M : Matrix (Fin n) (Fin m) ℝ)
    (j : Fin m) : prepend0 M 0 j = 0 := rfl

@[simp] theorem prepend0_succ {n m : ℕ} (M : Matrix (Fin n) (Fin m) ℝ)
    (i : Fin n) (j : Fin m) : prepend0 M i.succ j = M i j := by
  simp [prepend0]

theorem multivariate_normal_pdf_nonneg {k : ℕ} (x μ : Fin k → ℝ)
    {S : Matrix (Fin k) (Fin k) ℝ} (hS : S.PosDef) :
    0 ≤ multivariate_normal_pdf x μ S := by
  have h1 : (0:ℝ) < (2 * Real.pi) ^ (-(k : ℝ) / 2) :=
    Real.rpow_pos_of_pos (by positivity) _
  have h2 : (0:ℝ) < S.det ^ (-(1 : ℝ) / 2) :=
    Real.rpow_pos_of_pos hS.det_pos _
  exact le_of_lt (mul_pos (mul_pos h1 h2) (Real.exp_pos _))

theorem divF_eq_none_iff {a b : ℝ} : divF a b = none ↔ b = 0 := by
  rw [divF]
  split_ifs with h <;> simp [h]

/-!
## Claim theorems
-/

/-- C1.  The claim says `covariance_levy_fbm(0, v, H)` returns `0` for every
`v` including `v = 0`, with the value at `(0, 0)` defined directly rather than
through the `lo/hi` division.  The code has no such direct definition: at
`u = v = 0` it computes `u_min_v / u_max_v = 0/0`, and for `H = 3/4` (as for
every `H ≠ 0.5`, where the Cephes `b = 0` early return does not fire) the
`nan` propagates and the function returns `nan` (non-finite, modelled by
`none`).  (For `v > 0` the claimed value `0` does hold, see
`covariance_levy_fbm_zero_left`.) -/
theorem covariance_levy_fbm_origin_nan :
    covariance_levy_fbm 0 0 (3 / 4) = none :=
  covariance_levy_fbm_zero_zero (by norm_num) (by norm_num)

/-- C2.  For `H = 0.5` and all non-negative times `u`, `v`,
`covariance_levy_fbm(u, v, 0.5)` equals `min(u, v)`, the standard Brownian
motion covariance: the hypergeometric factor `₂F₁(1, 0; 2; ·)` is identically
`1` (the Cephes `b = 0` early return never reads its argument, so this holds
even at `u = v = 0`, where the ratio is `0/0 = nan`) and the prefactor
`(2H)/(H + 0.5)` is `1`. -/
theorem covariance_levy_fbm_half_is_min {u v : ℝ} (hu : 0 ≤ u) (hv : 0 ≤ v) :
    covariance_levy_fbm u v (1 / 2) = some (min u v) :=
  covariance_levy_fbm_half hu hv

theorem covariance_levy_fbm_half_is_min_witness :
    (0:ℝ) ≤ 2 ∧ (0:ℝ) ≤ 3 ∧
      covariance_levy_fbm 2 3 (1 / 2) = some (min 2 3) ∧
      covariance_levy_fbm 0 0 (1 / 2) = some (min 0 0) :=
  ⟨by norm_num, by norm_num,
    covariance_levy_fbm_half_is_min (by norm_num) (by norm_num),
    covariance_levy_fbm_half_is_min (le_refl 0) (le_refl 0)⟩

/-- C3.  The covariance kernel is symmetric in its two time arguments for all
real inputs (even where it is non-finite), and consequently the covariance
matrix that `simulate_fbm` builds from the outer pairing of the interior grid
times with themselves is symmetric, both at the float (`Option`) level and as
the underlying real matrix. -/
theorem covariance_levy_fbm_symmetric :
    (∀ u v H : ℝ, covariance_levy_fbm u v H = covariance_levy_fbm v u H) ∧
      ∀ (t H : ℝ) (n : ℕ),
        (covMatrixO t n H)ᵀ = covMatrixO t n H ∧ (covMatrixR t n H).IsSymm :=
  ⟨covariance_levy_fbm_comm, fun t H n =>
    ⟨covMatrixO_transpose t n H, covMatrixR_isSymm t n H⟩⟩

/-- C6.  Both simulators are, after `np.random.seed(seed)`, deterministic
functions of the seed and the remaining arguments: two calls with identical
arguments (any fixed draw stream `gauss`) give identical time grids and path
matrices, and the first row of the Brownian path matrix is all zeros. -/
theorem seeded_simulations_deterministic :
    ∀ (gauss : ℕ → ℕ → ℝ) (T : ℝ) (n_steps n_mc seed : ℕ),
      simulate_brownian_motion gauss T n_steps n_mc seed =
          simulate_brownian_motion gauss T n_steps n_mc seed ∧
        (∀ (t H : ℝ) (ns np sd : ℕ),
          simulate_fbm gauss t H ns np sd = simulate_fbm gauss t H ns np sd) ∧
        ∀ j, (simulate_brownian_motion gauss T n_steps n_mc seed).2 0 j = 0 :=
  fun _ _ _ _ _ => ⟨rfl, fun _ _ _ _ _ => rfl, fun _ => rfl⟩

/-- C7.  `gaussian_mixture_pdf` fails with the `ValueError`
`"Weights must sum to 1."` whenever the weights do not sum to exactly `1`;
the check is the first thing the function does (it fires for arbitrary
`x`, `means`, `covariances`, even invalid ones, before any density is
computed) and compares to `1` by exact equality. -/
theorem gaussian_mixture_pdf_weight_check {ns k nc : ℕ} (x : Fin ns → Fin k → ℝ)
    (weights : Fin nc → ℝ) (means : Fin nc → Fin k → ℝ)
    (covariances : Fin nc → Matrix (Fin k) (Fin k) ℝ)
    (h : (∑ i, weights i) ≠ 1) :
    gaussian_mixture_pdf x weights means covariances =
      Except.error "Weights must sum to 1." := by
  rw [gaussian_mixture_pdf, if_pos h]

/-- C9.  A Brownian bridge from `a = 0` to `b = 0` over `[0, 1]` has its first
and last path-matrix rows identically `0` for every step count `≥ 1`, path
count, seed, and draw stream: the drift subtraction pins both endpoints
exactly. -/
theorem bridge_endpoints_pinned (gauss : ℕ → ℕ → ℝ) (n_steps n_mc seed : ℕ)
    (j : Fin n_mc) (h : 1 ≤ n_steps) :
    (simulate_brownian_bridge gauss 0 0 0 1 n_steps n_mc seed).2 0 j = 0 ∧
      (simulate_brownian_bridge gauss 0 0 0 1 n_steps n_mc seed).2
        (Fin.last n_steps) j = 0 := by
  have hn : ((n_steps : ℕ) : ℝ) ≠ 0 := Nat.cast_ne_zero.mpr (by omega)
  constructor
  · simp [simulate_brownian_bridge]
  · simp only [simulate_brownian_bridge]
    rw [show ((Fin.last n_steps : ℕ) : ℝ) = (n_steps : ℝ) from by rw [Fin.val_last]]
    field_simp

/-- C5.  For admissible parameters (`t > 0`, `H ∈ (0, 1)`, where every entry
of the covariance matrix is a finite float), `simulate_fbm` propagates the
linear-algebra error — returns `none` — exactly when the covariance matrix
over the interior grid points is not positive definite; otherwise the
Cholesky factorization succeeded and paths are returned. -/
theorem simulate_fbm_error_iff_not_posDef (gauss : ℕ → ℕ → ℝ) {t H : ℝ}
    (n_steps n_paths seed : ℕ) (ht : 0 < t) (hH0 : 0 < H) (_hH1 : H < 1) :
    simulate_fbm gauss t H n_steps n_paths seed = none ↔
      ¬(covMatrixR t n_steps H).PosDef := by
  have hcond := covMatrixO_isSome (n := n_steps) ht hH0
  simp only [simulate_fbm]
  rw [if_pos hcond, Option.map_eq_none']
  exact cholesky_eq_none_iff (covMatrixR_isSymm t n_steps H)

/-- C8 (amended).  For non-negative weights summing to `1` (with any means
and covariances accepted by the density evaluation), every value
`gaussian_mixture_pdf` returns is non-negative. -/
theorem gaussian_mixture_pdf_nonneg {ns k nc : ℕ} (x : Fin ns → Fin k → ℝ)
    (weights : Fin nc → ℝ) (means : Fin nc → Fin k → ℝ)
    (covariances : Fin nc → Matrix (Fin k) (Fin k) ℝ) (f : Fin ns → ℝ)
    (s : Fin ns) (hw : ∀ i, 0 ≤ weights i) (hsum : (∑ i, weights i) = 1)
    (h : gaussian_mixture_pdf x weights means covariances = Except.ok f) :
    0 ≤ f s := by
  rw [gaussian_mixture_pdf, if_neg (fun hne => hne hsum)] at h
  by_cases hpd : ∀ i, (covariances i).PosDef
  · rw [if_pos hpd] at h
    have hf := Except.ok.inj h
    rw [← hf]
    exact Finset.sum_nonneg fun i _ =>
      mul_nonneg (hw i) (multivariate_normal_pdf_nonneg _ _ (hpd i))
  · rw [if_neg hpd] at h
    exact absurd h (fun hc => Except.noConfusion hc)

theorem mixW7_sum_ne : (∑ i, mixW7 i) ≠ 1 := by
  rw [Fin.sum_univ_two]
  norm_num [mixW7]

theorem gaussian_mixture_pdf_weight_check_witness :
    (∑ i, mixW7 i) ≠ 1 ∧
      gaussian_mixture_pdf mixX7 mixW7 mixMu7 mixS7 =
        Except.error "Weights must sum to 1." :=
  ⟨mixW7_sum_ne, gaussian_mixture_pdf_weight_check mixX7 mixW7 mixMu7 mixS7 mixW7_sum_ne⟩

theorem mixOk_eval :
    gaussian_mixture_pdf mixOkX mixOkW mixOkMu mixOkS = Except.ok mixOkOut := by
  rw [gaussian_mixture_pdf,
    if_neg (show ¬(∑ i, mixOkW i) ≠ 1 from fun hne => hne (by simp [mixOkW])),
    if_pos (show ∀ i : Fin 1, (mixOkS i).PosDef from fun _ => Matrix.PosDef.one)]
  rfl

theorem gaussian_mixture_pdf_nonneg_witness :
    (∑ i, mixOkW i) = 1 ∧
      gaussian_mixture_pdf mixOkX mixOkW mixOkMu mixOkS = Except.ok mixOkOut ∧
      0 ≤ mixOkOut 0 :=
  ⟨by simp [mixOkW], mixOk_eval,
    gaussian_mixture_pdf_nonneg mixOkX mixOkW mixOkMu mixOkS mixOkOut 0
      (fun _ => by norm_num [mixOkW]) (by simp [mixOkW]) mixOk_eval⟩

theorem bridge_endpoints_pinned_witness :
    1 ≤ 1 ∧
      (simulate_brownian_bridge zeroStream 0 0 0 1 1 1 0).2 0 0 = 0 ∧
      (simulate_brownian_bridge zeroStream 0 0 0 1 1 1 0).2 (Fin.last 1) 0 = 0 :=
  ⟨le_refl 1,
    (bridge_endpoints_pinned zeroStream 1 1 0 0 (le_refl 1)).1,
    (bridge_endpoints_pinned zeroStream 1 1 0 0 (le_refl 1)).2⟩

/-- C4.  Whenever `simulate_fbm` succeeds on admissible parameters, the time
grid is the uniform grid of `n_steps + 1` points from `0` to `t` (starts at
`0`, ends at `t`, constant spacing `t / n_steps`), and the path matrix —
whose shape `(n_steps + 1) × n_paths` is enforced by its type — has first
row exactly zero in every column. -/
theorem simulate_fbm_output_structure (gauss : ℕ → ℕ → ℝ) {t H : ℝ}
    (n_steps n_paths seed : ℕ) (tg : Fin (n_steps + 1) → ℝ)
    (pm : Matrix (Fin (n_steps + 1)) (Fin n_paths) ℝ)
    (i : Fin n_steps) (j : Fin n_paths)
    (ht : 0 < t) (hH0 : 0 < H) (_hH1 : H < 1) (hn : 1 ≤ n_steps)
    (_hp : 1 ≤ n_paths)
    (h : simulate_fbm gauss t H n_steps n_paths seed = some (tg, pm)) :
    tg 0 = 0 ∧ tg (Fin.last n_steps) = t ∧
      tg i.succ - tg i.castSucc = t / n_steps ∧ pm 0 j = 0 := by
  have hcond := covMatrixO_isSome (n := n_steps) ht hH0
  simp only [simulate_fbm] at h
  rw [if_pos hcond] at h
  obtain ⟨L, -, hpair⟩ := Option.map_eq_some'.mp h
  have htg := congrArg Prod.fst hpair
  have hpm := congrArg Prod.snd hpair
  simp only at htg hpm
  have hn0 : ((n_steps : ℕ) : ℝ) ≠ 0 := Nat.cast_ne_zero.mpr (by omega)
  refine ⟨?_, ?_, ?_, ?_⟩
  · rw [← htg]
    show gridPt t n_steps ((0 : Fin (n_steps + 1)) : ℕ) = 0
    simp [gridPt]
  · rw [← htg]
    show gridPt t n_steps ((Fin.last n_steps : ℕ)) = t
    rw [Fin.val_last, gridPt]
    field_simp
  · rw [← htg]
    show gridPt t n_steps ((i.succ : ℕ)) - gridPt t n_steps ((i.castSucc : ℕ)) =
      t / n_steps
    rw [Fin.val_succ, Fin.coe_castSucc, gridPt, gridPt]
    push_cast
    field_simp
    ring
  · rw [← hpm]
    rfl

theorem covMatrixR_one_one : covMatrixR 1 1 (1 / 2) = 1 := by
  funext i j
  have hij : i = j := Subsingleton.elim i j
  have hi : (i : ℕ) = 0 := by omega
  have hj : (j : ℕ) = 0 := by omega
  simp only [covMatrixR, covMatrixO, hi, hj]
  rw [show gridPt 1 1 (0 + 1) = 1 from by norm_num [gridPt]]
  rw [covariance_levy_fbm_half (by norm_num) (by norm_num)]
  rw [hij, Matrix.one_apply_eq]
  simp

theorem fbm_eval : simulate_fbm zeroStream 1 (1 / 2) 1 1 0 = some fbmOutW := by
  have hcond := covMatrixO_isSome (n := 1) (t := 1) (H := 1 / 2) one_pos (by norm_num)
  have hPD : (covMatrixR 1 1 (1 / 2)).PosDef := by
    rw [covMatrixR_one_one]
    exact Matrix.PosDef.one
  rcases Option.isSome_iff_exists.mp (cholesky_isSome_of_posDef 1 _ hPD) with ⟨L, hL⟩
  simp only [simulate_fbm]
  rw [if_pos hcond, hL, Option.map_some']
  refine congrArg some (congrArg (Prod.mk _) ?_)
  funext i j
  induction i using Fin.cases with
  | zero => rfl
  | succ i => simp [Matrix.mul_apply, zeroStream, fbmOutW]

theorem simulate_fbm_output_structure_witness :
    (0:ℝ) < 1 ∧ (0:ℝ) < 1 / 2 ∧ (1 / 2 : ℝ) < 1 ∧ 1 ≤ 1 ∧
      simulate_fbm zeroStream 1 (1 / 2) 1 1 0 = some fbmOutW ∧
      (fbmOutW.1 0 = 0 ∧ fbmOutW.1 (Fin.last 1) = 1 ∧
        fbmOutW.1 (0 : Fin 1).succ - fbmOutW.1 (0 : Fin 1).castSucc = 1 / ((1:ℕ):ℝ) ∧
        fbmOutW.2 0 0 = 0) :=
  ⟨one_pos, by norm_num, by norm_num, le_refl 1,
    fbm_eval,
    by
      have hsome : simulate_fbm zeroStream 1 (1 / 2) 1 1 0 =
          some (fbmOutW.1, fbmOutW.2) := fbm_eval
      exact simulate_fbm_output_structure zeroStream 1 1 0 fbmOutW.1 fbmOutW.2 0 0
        one_pos (by norm_num) (by norm_num) (le_refl 1) (le_refl 1) hsome⟩

theorem simulate_fbm_error_iff_not_posDef_witness :
    (0:ℝ) < 1 ∧ (0:ℝ) < 1 / 2 ∧ (1 / 2 : ℝ) < 1 ∧
      (simulate_fbm zeroStream 1 (1 / 2) 1 1 0 = none ↔
        ¬(covMatrixR 1 1 (1 / 2)).PosDef) :=
  ⟨one_pos, by norm_num, by norm_num,
    simulate_fbm_error_iff_not_posDef zeroStream 1 1 0 one_pos (by norm_num)
      (by norm_num)⟩

theorem mixCexW_sum : (∑ i, mixCexW i) = 1 := by
  rw [Fin.sum_univ_two]
  norm_num [mixCexW]

theorem multivariate_normal_pdf_id {m : ℝ} :
    multivariate_normal_pdf (fun _ => (3:ℝ)) (fun _ => m)
        (1 : Matrix (Fin 1) (Fin 1) ℝ) =
      (2 * Real.pi) ^ (-(1:ℝ) / 2) * Real.exp (-(1 / 2) * ((3 - m) * (3 - m))) := by
  rw [multivariate_normal_pdf, Matrix.det_one, inv_one, Real.one_rpow,
    Matrix.one_mulVec]
  simp [dotProduct, Fin.sum_univ_one]

/-- C8 (counterexample).  The claim asserts every value returned by
`gaussian_mixture_pdf` is non-negative for any weights summing to `1`; with
weights `(2, -1)` (which sum to `1`), unit covariances and means `0` and `3`,
the returned density at `x = 3` is negative. -/
theorem gaussian_mixture_pdf_negative_output :
    gaussian_mixture_pdf mixCexX mixCexW mixCexMu mixCexS = Except.ok mixCexOut ∧
      mixCexOut 0 < 0 := by
  constructor
  · rw [gaussian_mixture_pdf, if_neg (fun hne => hne mixCexW_sum),
      if_pos (show ∀ i : Fin 2, (mixCexS i).PosDef from fun _ => Matrix.PosDef.one)]
    rfl
  · have hx : mixCexX 0 = fun _ => (3:ℝ) := rfl
    have hmu0 : mixCexMu 0 = fun _ => (0:ℝ) := rfl
    have hmu1 : mixCexMu 1 = fun _ => (3:ℝ) := rfl
    have hw0 : mixCexW 0 = 2 := rfl
    have hw1 : mixCexW 1 = -1 := rfl
    have hS : ∀ i, mixCexS i = 1 := fun i => rfl
    rw [mixCexOut, Fin.sum_univ_two, hx, hmu0, hmu1, hw0, hw1, hS 0, hS 1,
      multivariate_normal_pdf_id, multivariate_normal_pdf_id]
    have e0 : (-(1 / 2) : ℝ) * ((3 - 0) * (3 - 0)) = -(9 / 2) := by norm_num
    have e1 : (-(1 / 2) : ℝ) * ((3 - 3) * (3 - 3)) = 0 := by norm_num
    rw [e0, e1, Real.exp_zero]
    have hC : (0:ℝ) < (2 * Real.pi) ^ (-(1:ℝ) / 2) :=
      Real.rpow_pos_of_pos (by positivity) _
    have hE : Real.exp (-(9 / 2)) < 1 / 2 := by
      have h1 : (9:ℝ) / 2 + 1 ≤ Real.exp (9 / 2) := Real.add_one_le_exp _
      have h2 : Real.exp (-(9 / 2)) * Real.exp (9 / 2) = 1 := by
        rw [← Real.exp_add]
        norm_num
      nlinarith [Real.exp_pos (-(9 / 2) : ℝ)]
    nlinarith [mul_pos hC (show (0:ℝ) < 1 - 2 * Real.exp (-(9 / 2)) by linarith)]

/-- C10.  The Nelson–Siegel functions perform an unguarded division by
`lbd * tau`: the yield and the two slope/curvature loadings are non-finite
(`nan`, i.e. `none`) exactly when `lbd * tau = 0` — no exception is raised
(the functions return values, not errors) — and they are well defined
(`isSome`) whenever `lbd * tau ≠ 0`; the level loading is constantly `1`. -/
theorem nelson_siegel_division_characterization
    (tau beta0 beta1 beta2 lbd : ℝ) :
    (nelson_siegel tau beta0 beta1 beta2 lbd = none ↔ lbd * tau = 0) ∧
      ((nelson_siegel_loadings tau lbd).2.1 = none ↔ lbd * tau = 0) ∧
      ((nelson_siegel_loadings tau lbd).2.2 = none ↔ lbd * tau = 0) ∧
      (nelson_siegel_loadings tau lbd).1 = some 1 := by
  refine ⟨?_, ?_, ?_, rfl⟩
  · rw [nelson_siegel, Option.map_eq_none', divF_eq_none_iff]
  · rw [nelson_siegel_loadings]
    exact divF_eq_none_iff
  · rw [nelson_siegel_loadings]
    simp only []
    rw [Option.map_eq_none', divF_eq_none_iff]
